import Mathlib

/-!
Verification of the batched, concurrency-limited, resumable annotation
pipeline implemented in `labeling_optimized.py`.

The development shallowly embeds the pipeline's pure logic and models its
asynchronous parts as explicit transition systems:

* the batch partitioner of `main_async` (`numBatches`, `batchStart`, `batchEnd`);
* the annotation client `call_api` / `label_batch_async`, including the
  tenacity retry decorator (`wait_exponential(multiplier=1, min=2, max=60)`,
  `stop_after_attempt(5)`) and the response validation / id-reconciliation;
* the result assembler (`all_labels[start:end] = labels` slice writes) and
  the batch-processing fold used to reason about completion orders and resume;
* the controller tail of `main_async` (checkpoint save / cleanup);
* input validation and `load_checkpoint`;
* a semaphore transition system for the `asyncio.Semaphore(MAX_CONCURRENCY)`
  gate around the network call, and a lock transition system for the
  `async with lock` critical section of `handle_batch`.
-/

namespace Labeling

/-! ### Configuration constants (module-level constants of the script).
Theorems are stated over general parameters because batch size, concurrency
and the model are CLI-overridable; the constants record the defaults. -/

def BATCH_SIZE : Nat := 50
def MAX_CONCURRENCY : Nat := 10
def CHECKPOINT_INTERVAL : Nat := 5
def TEXT_COL : String := "cleaned_text"

/-! ### Batch partitioner

`main_async` computes `num_batches = math.ceil(n / BATCH_SIZE)` and
`handle_batch` slices `texts[start:end]` with
`start = batch_idx * BATCH_SIZE`, `end = min((batch_idx + 1) * BATCH_SIZE, n)`.
On naturals, `math.ceil(n / B)` is `(n + B - 1) / B`. -/

def numBatches (n B : Nat) : Nat := (n + B - 1) / B

def batchStart (B k : Nat) : Nat := k * B

def batchEnd (n B k : Nat) : Nat := min ((k + 1) * B) n

/-- Global record index `i` falls in batch `k`. -/
def inBatch (n B i k : Nat) : Prop := batchStart B k ≤ i ∧ i < batchEnd n B k

instance (n B i k : Nat) : Decidable (inBatch n B i k) := by
  unfold inBatch; infer_instance

lemma numBatches_eq_succ (n B : Nat) (hn : 1 ≤ n) (hB : 1 ≤ B) :
    numBatches n B = (n - 1) / B + 1 := by
  unfold numBatches
  have h : n + B - 1 = (n - 1) + B := by omega
  rw [h, Nat.add_div_right _ hB]

lemma inBatch_iff (n B i k : Nat) (hB : 1 ≤ B) :
    inBatch n B i k ↔ k = i / B ∧ i < n := by
  constructor
  · rintro ⟨h1, h2⟩
    unfold batchStart at h1
    unfold batchEnd at h2
    have h2' : i < (k + 1) * B := lt_of_lt_of_le h2 (min_le_left _ _)
    have hn : i < n := lt_of_lt_of_le h2 (min_le_right _ _)
    have hk1 : k ≤ i / B := (Nat.le_div_iff_mul_le hB).2 h1
    have hk2 : i / B < k + 1 := Nat.div_lt_iff_lt_mul hB |>.2 h2'
    exact ⟨by omega, hn⟩
  · rintro ⟨hk, hn⟩
    subst hk
    refine ⟨Nat.div_mul_le_self i B, ?_⟩
    unfold batchEnd
    refine lt_min ?_ hn
    exact (Nat.div_lt_iff_lt_mul hB).1 (Nat.lt_succ_self _)

lemma div_lt_numBatches (n B i : Nat) (hB : 1 ≤ B) (hi : i < n) :
    i / B < numBatches n B := by
  rw [numBatches_eq_succ n B (by omega) hB]
  have : i / B ≤ (n - 1) / B := Nat.div_le_div_right (by omega)
  omega

/-- **C8.** For all `N ≥ 1` and `B ≥ 1`, the partitioner produces exactly
`ceil(N/B)` batches (characterised as the unique `m` with
`B*(m-1) < N ≤ B*m`, and `m ≥ 1`); batch `k` covers global indices
`[k*B, min((k+1)*B, N))`; and every index `i ∈ {0..N-1}` belongs to exactly
one batch, namely batch `i / B`, which is among `0..numBatches-1`.
The definitions are pure functions, so partitioning is deterministic with no
failure modes. -/
theorem partition_complete (n B : Nat) (hn : 1 ≤ n) (hB : 1 ≤ B) :
    (1 ≤ numBatches n B ∧
      B * (numBatches n B - 1) < n ∧ n ≤ B * numBatches n B) ∧
    (∀ i, i < n →
      (i / B < numBatches n B ∧ inBatch n B i (i / B)) ∧
      ∀ k, inBatch n B i k → k = i / B) := by
  constructor
  · rw [numBatches_eq_succ n B hn hB]
    refine ⟨Nat.le_add_left 1 _, ?_, ?_⟩
    · have h1 : B * ((n - 1) / B) ≤ n - 1 := by
        calc B * ((n - 1) / B) = (n - 1) / B * B := Nat.mul_comm _ _
          _ ≤ n - 1 := Nat.div_mul_le_self _ _
      simp only [Nat.add_sub_cancel]
      omega
    · have h2 : n - 1 < B * ((n - 1) / B + 1) := by
        have h := (Nat.div_lt_iff_lt_mul hB).1 (Nat.lt_succ_self ((n - 1) / B))
        calc n - 1 < ((n - 1) / B + 1) * B := h
          _ = B * ((n - 1) / B + 1) := Nat.mul_comm _ _
      omega
  · intro i hi
    refine ⟨⟨div_lt_numBatches n B i hB hi, ?_⟩, ?_⟩
    · exact (inBatch_iff n B i (i / B) hB).2 ⟨rfl, hi⟩
    · intro k hk
      exact ((inBatch_iff n B i k hB).1 hk).1

/-- Witness for `partition_complete` at `N = 101`, `B = 50` (the worked
example of the spec: 3 batches of sizes 50, 50, 1). -/
theorem partition_complete_witness :
    (1 ≤ numBatches 101 50 ∧
      50 * (numBatches 101 50 - 1) < 101 ∧ 101 ≤ 50 * numBatches 101 50) ∧
    (∀ i, i < 101 →
      (i / 50 < numBatches 101 50 ∧ inBatch 101 50 i (i / 50)) ∧
      ∀ k, inBatch 101 50 i k → k = i / 50) :=
  partition_complete 101 50 (by decide) (by decide)

/-! ### Annotation client

`call_api` is decorated with
`@retry(retry=retry_if_exception_type((RateLimitError, APITimeoutError,
APIConnectionError)), wait=wait_exponential(multiplier=1, min=2, max=60),
stop=stop_after_attempt(5))`.  `label_batch_async` builds the request, calls
`call_api`, parses the response body as JSON, validates it is a list of the
right length, sorts by the echoed local id, strips the id, and returns the
payloads; every error path returns `[None] * len(texts)`. -/

/-- Exceptions the service call can raise. -/
inductive ApiError
  | rateLimit      -- openai.RateLimitError
  | apiTimeout     -- openai.APITimeoutError
  | apiConnection  -- openai.APIConnectionError
  | other          -- any other exception escaping the call
deriving DecidableEq

/-- `retry_if_exception_type((RateLimitError, APITimeoutError, APIConnectionError))`. -/
def retryable : ApiError → Bool
  | .other => false
  | _ => true

/-- One element of the service's JSON array: the echoed local id
(`d.get("id", 0)` treats it as optional) plus the annotation payload
(scores, flags, comment), kept abstract. -/
structure RespElem (A : Type) where
  id : Option Int
  payload : A
deriving DecidableEq

/-- The service response body after `json.loads` (markdown fences already
stripped): unparseable JSON, a JSON value that is not a list, or a list. -/
inductive RespBody (A : Type)
  | notJson
  | nonList
  | list (elems : List (RespElem A))
deriving DecidableEq

/-- Outcome of one network attempt, indexed by attempt number. -/
inductive Attempt (A : Type)
  | ok (body : RespBody A)
  | err (e : ApiError)

/-- Result of `call_api` with the retry decorator: a response, a tenacity
`RetryError` after exhausting the attempts, or a non-retryable exception. -/
inductive CallOutcome (A : Type)
  | ok (body : RespBody A)
  | exhausted (e : ApiError)
  | raised (e : ApiError)

/-- What a whole `call_api` invocation did: its outcome, how many network
calls it issued, and the backoff delays slept between attempts. -/
structure CallTrace (A : Type) where
  outcome : CallOutcome A
  callsMade : Nat
  delays : List Nat

/-- tenacity `wait_exponential(multiplier, min, max)`: after attempt number
`attempt` fails, sleep `max(min, min(multiplier * 2^(attempt-1), max))`. -/
def waitExponential (multiplier mn mx attempt : Nat) : Nat :=
  Nat.max mn (Nat.min (multiplier * 2 ^ (attempt - 1)) mx)

/-- The configured policy: `wait_exponential(multiplier=1, min=2, max=60)`. -/
def backoffDelay (attempt : Nat) : Nat := waitExponential 1 2 60 attempt

/-- `stop_after_attempt(5)`. -/
def MAX_ATTEMPTS : Nat := 5

/-- The retry loop of the decorator: issue attempt `attempt`; on success stop;
on a retryable error, sleep `backoffDelay attempt` and retry while attempts
remain (`fuel` counts the attempts still allowed after this one), otherwise
stop with a `RetryError`; a non-retryable error propagates at once. -/
def callApiAux (svc : Nat → Attempt A) : Nat → Nat → CallTrace A
  | attempt, 0 =>
    match svc attempt with
    | .ok body => ⟨.ok body, 1, []⟩
    | .err e =>
      if retryable e then ⟨.exhausted e, 1, []⟩ else ⟨.raised e, 1, []⟩
  | attempt, fuel + 1 =>
    match svc attempt with
    | .ok body => ⟨.ok body, 1, []⟩
    | .err e =>
      if retryable e then
        let rest := callApiAux svc (attempt + 1) fuel
        ⟨rest.outcome, rest.callsMade + 1, backoffDelay attempt :: rest.delays⟩
      else ⟨.raised e, 1, []⟩

/-- `call_api` under the decorator: attempts are numbered from 1 and at most
`MAX_ATTEMPTS` are made. -/
def callApi (svc : Nat → Attempt A) : CallTrace A :=
  callApiAux svc 1 (MAX_ATTEMPTS - 1)

/-- Python sort key `lambda d: d.get("id", 0)`. -/
def pyKey (d : RespElem A) : Int := d.id.getD 0

/-- `sorted(data_list, key=lambda d: d.get("id", 0))`.  Python's `sorted` is
a stable sort by the key; `List.insertionSort` is a stable sort, so it
computes the same list. -/
def pySorted (l : List (RespElem A)) : List (RespElem A) :=
  List.insertionSort (fun d e => pyKey d ≤ pyKey e) l

/-- Sort by the echoed id, then strip the id (`d.pop("id", None)`) keeping
only the payload. -/
def reconcile (elems : List (RespElem A)) : List A :=
  (pySorted elems).map RespElem.payload

/-- `label_batch_async`: one `call_api` invocation, then JSON parsing and
validation; each failure path returns `[None] * len(texts)` (the `Failure`
sentinel per record). -/
def labelBatch (svc : Nat → Attempt A) (texts : List String) : List (Option A) :=
  match (callApi svc).outcome with
  | .ok (.list elems) =>
    if elems.length = texts.length then (reconcile elems).map some
    else List.replicate texts.length none
  | .ok .nonList => List.replicate texts.length none  -- ValueError, caught
  | .ok .notJson => List.replicate texts.length none  -- JSONDecodeError, caught
  | .exhausted _ => List.replicate texts.length none  -- RetryError, caught
  | .raised _ => List.replicate texts.length none     -- any exception, caught

/-- A response body the validation of `label_batch_async` rejects:
unparseable JSON, a non-list, or a list of the wrong length. -/
def invalidBody (body : RespBody A) (nTexts : Nat) : Prop :=
  match body with
  | .notJson => True
  | .nonList => True
  | .list elems => elems.length ≠ nTexts

instance (body : RespBody A) (nTexts : Nat) : Decidable (invalidBody body nTexts) := by
  unfold invalidBody
  cases body <;> infer_instance

/-- **C3.** If every attempt raises a transient (retryable) service error,
`call_api` makes exactly `MAX_ATTEMPTS = 5` calls, sleeping the
`wait_exponential(multiplier=1, min=2, max=60)` delays `[2, 2, 4, 8]`
between attempts — each delay is `max(min, min(2^(k-1), max))`, so the
backoff starts at the configured minimum, doubles, and is capped at the
maximum — and `label_batch_async` returns the `Failure` sentinel for every
record of the batch instead of propagating the exception. -/
theorem retry_exhaustion_failure (A : Type) (svc : Nat → Attempt A)
    (texts : List String)
    (h : ∀ k, 1 ≤ k → k ≤ MAX_ATTEMPTS → ∃ e, svc k = .err e ∧ retryable e = true) :
    labelBatch svc texts = List.replicate texts.length none ∧
    (callApi svc).callsMade = MAX_ATTEMPTS ∧
    (callApi svc).delays =
      [backoffDelay 1, backoffDelay 2, backoffDelay 3, backoffDelay 4] ∧
    (callApi svc).delays = [2, 2, 4, 8] ∧
    (∀ k, backoffDelay k = Nat.max 2 (Nat.min (2 ^ (k - 1)) 60)) ∧
    (∀ d ∈ (callApi svc).delays, 2 ≤ d ∧ d ≤ 60) := by
  obtain ⟨e1, he1, hr1⟩ := h 1 (by decide) (by decide)
  obtain ⟨e2, he2, hr2⟩ := h 2 (by decide) (by decide)
  obtain ⟨e3, he3, hr3⟩ := h 3 (by decide) (by decide)
  obtain ⟨e4, he4, hr4⟩ := h 4 (by decide) (by decide)
  obtain ⟨e5, he5, hr5⟩ := h 5 (by decide) (by decide)
  have htrace : callApi svc =
      ⟨.exhausted e5, 5, [backoffDelay 1, backoffDelay 2, backoffDelay 3, backoffDelay 4]⟩ := by
    show callApiAux svc 1 4 = _
    simp [callApiAux, he1, he2, he3, he4, he5, hr1, hr2, hr3, hr4, hr5]
  refine ⟨?_, ?_, ?_, ?_, ?_, ?_⟩
  · unfold labelBatch
    rw [htrace]
  · rw [htrace]; rfl
  · rw [htrace]
  · rw [htrace]; rfl
  · intro k; simp [backoffDelay, waitExponential]
  · rw [htrace]
    intro d hd
    simp only [List.mem_cons, List.not_mem_nil, or_false] at hd
    rcases hd with h | h | h | h <;> subst h <;> constructor <;> decide

/-- Witness for `retry_exhaustion_failure`: a service that always raises
`RateLimitError`, on a 3-record batch. -/
theorem retry_exhaustion_failure_witness :
    labelBatch (A := Unit) (fun _ => .err .rateLimit) ["a", "b", "c"] =
      List.replicate 3 none ∧
    (callApi (A := Unit) (fun _ => .err .rateLimit)).callsMade = MAX_ATTEMPTS ∧
    (callApi (A := Unit) (fun _ => .err .rateLimit)).delays =
      [backoffDelay 1, backoffDelay 2, backoffDelay 3, backoffDelay 4] ∧
    (callApi (A := Unit) (fun _ => .err .rateLimit)).delays = [2, 2, 4, 8] ∧
    (∀ k, backoffDelay k = Nat.max 2 (Nat.min (2 ^ (k - 1)) 60)) ∧
    (∀ d ∈ (callApi (A := Unit) (fun _ => .err .rateLimit)).delays, 2 ≤ d ∧ d ≤ 60) :=
  retry_exhaustion_failure Unit (fun _ => .err .rateLimit) ["a", "b", "c"]
    (fun _ _ _ => ⟨.rateLimit, rfl, rfl⟩)

/-- **C4.** If the first attempt returns a structurally invalid response
(unparseable JSON, a non-list, or a list of the wrong length),
`label_batch_async` makes exactly one service call — the validation error is
raised outside `call_api`, so the retry decorator never sees it — and
immediately returns one `Failure` sentinel per record of the batch. -/
theorem format_error_single_call (A : Type) (svc : Nat → Attempt A)
    (texts : List String) (body : RespBody A)
    (h1 : svc 1 = .ok body) (h2 : invalidBody body texts.length) :
    labelBatch svc texts = List.replicate texts.length none ∧
    (callApi svc).callsMade = 1 := by
  have htrace : callApi svc = ⟨.ok body, 1, []⟩ := by
    show callApiAux svc 1 4 = _
    simp [callApiAux, h1]
  refine ⟨?_, by rw [htrace]⟩
  unfold labelBatch
  rw [htrace]
  match body, h2 with
  | .notJson, _ => rfl
  | .nonList, _ => rfl
  | .list elems, h2 => simpa using fun h => absurd h h2

/-- Witness for `format_error_single_call`: a 2-record batch answered by a
1-element list. -/
theorem format_error_single_call_witness :
    labelBatch (fun _ => .ok (.list [⟨some 0, (7 : Nat)⟩])) ["a", "b"] =
      List.replicate 2 none ∧
    (callApi (fun _ => .ok (.list [⟨some 0, (7 : Nat)⟩]))).callsMade = 1 :=
  format_error_single_call Nat (fun _ => .ok (.list [⟨some 0, 7⟩])) ["a", "b"]
    (.list [⟨some 0, 7⟩]) rfl (by decide)

/-! ### Result assembler

`handle_batch` writes `all_labels[start:end] = labels` where
`start = batch_idx * BATCH_SIZE` and `len(labels) == end - start` (guaranteed
by `label_batch_async`).  The table is modelled as a function from global
record index to the stored row (`none` is Python's `None`). -/

/-- Python slice assignment `tbl[start : start + len(rows)] = rows`. -/
def writeSlice (tbl : Nat → Option A) (start : Nat) (rows : List (Option A)) :
    Nat → Option A :=
  fun i =>
    if start ≤ i ∧ i < start + rows.length then rows.getD (i - start) none else tbl i

/-- Processing a list of batches in completion order: each completed batch
`b` writes its rows at offset `batchStart B b`. -/
def runBatches (B : Nat) (rows : Nat → List (Option A)) (tbl0 : Nat → Option A)
    (order : List Nat) : Nat → Option A :=
  order.foldl (fun tbl b => writeSlice tbl (batchStart B b) (rows b)) tbl0

lemma writeSlice_eq (n B : Nat) (hB : 1 ≤ B) (rows : Nat → List (Option A))
    (hlen : ∀ b, (rows b).length = batchEnd n B b - batchStart B b)
    (tbl : Nat → Option A) (b i : Nat) :
    writeSlice tbl (batchStart B b) (rows b) i =
      if b = i / B ∧ i < n then (rows (i / B)).getD (i % B) none else tbl i := by
  unfold writeSlice
  have hse : batchStart B b ≤ batchEnd n B b ∨ batchEnd n B b ≤ batchStart B b := by
    omega
  have hcond : (batchStart B b ≤ i ∧ i < batchStart B b + (rows b).length) ↔
      (b = i / B ∧ i < n) := by
    rw [hlen b]
    constructor
    · rintro ⟨h1, h2⟩
      have hib : inBatch n B i b := by
        refine ⟨h1, ?_⟩
        unfold inBatch batchStart batchEnd at *
        omega
      exact ⟨((inBatch_iff n B i b hB).1 hib).1, ((inBatch_iff n B i b hB).1 hib).2⟩
    · rintro ⟨h1, h2⟩
      have hib : inBatch n B i b := (inBatch_iff n B i b hB).2 ⟨h1, h2⟩
      obtain ⟨h3, h4⟩ := hib
      refine ⟨h3, ?_⟩
      unfold inBatch batchStart batchEnd at *
      omega
  by_cases hc : b = i / B ∧ i < n
  · rw [if_pos (hcond.2 hc), if_pos hc, hc.1]
    have hidx : i - batchStart B (i / B) = i % B := by
      have hd := Nat.div_add_mod i B
      unfold batchStart
      rw [Nat.mul_comm]
      omega
    rw [hidx]
  · rw [if_neg (fun hx => hc (hcond.1 hx)), if_neg hc]

/-- Pointwise description of any completion order: index `i` holds the row
`i % B` of batch `i / B` exactly when that batch is in the order (and `i` is
a real record index); otherwise the initial table value. -/
lemma runBatches_eq (n B : Nat) (hB : 1 ≤ B) (rows : Nat → List (Option A))
    (hlen : ∀ b, (rows b).length = batchEnd n B b - batchStart B b)
    (tbl0 : Nat → Option A) (order : List Nat) (i : Nat) :
    runBatches B rows tbl0 order i =
      if i / B ∈ order ∧ i < n then (rows (i / B)).getD (i % B) none else tbl0 i := by
  induction order generalizing tbl0 with
  | nil => simp [runBatches]
  | cons b rest ih =>
    show runBatches B rows (writeSlice tbl0 (batchStart B b) (rows b)) rest i = _
    rw [ih]
    rw [writeSlice_eq n B hB rows hlen tbl0 b i]
    by_cases hrest : i / B ∈ rest ∧ i < n
    · rw [if_pos hrest, if_pos ⟨List.mem_cons_of_mem b hrest.1, hrest.2⟩]
    · rw [if_neg hrest]
      by_cases hb : b = i / B ∧ i < n
      · rw [if_pos hb, if_pos ⟨hb.1 ▸ List.mem_cons_self b rest, hb.2⟩]
      · rw [if_neg hb, if_neg ?_]
        rintro ⟨hmem, hin⟩
        rcases List.mem_cons.1 hmem with h | h
        · exact hb ⟨h.symm, hin⟩
        · exact hrest ⟨h, hin⟩

/-! ### Reconciliation: positions after sorting by the echoed id -/

instance instTotalPyKey (A : Type) :
    IsTotal (RespElem A) (fun d e => pyKey d ≤ pyKey e) :=
  ⟨fun _ _ => le_total _ _⟩

instance instTransPyKey (A : Type) :
    IsTrans (RespElem A) (fun d e => pyKey d ≤ pyKey e) :=
  ⟨fun _ _ _ hab hbc => le_trans hab hbc⟩

/-- When the echoed ids are exactly a permutation of `0..N-1`, the element
whose id is `j` ends up at position `j` of the reconciled row list. -/
lemma reconcile_getElem (A : Type) (elems : List (RespElem A)) (N : ℕ)
    (hlen : elems.length = N)
    (hperm : (elems.map pyKey).Perm (List.map (fun j : ℕ => (j : ℤ)) (List.range N)))
    (j : ℕ) (hj : j < N) (e : RespElem A) (he : e ∈ elems)
    (hkey : pyKey e = (j : ℤ)) :
    (reconcile elems)[j]? = some e.payload := by
  set s := pySorted elems with hs
  have hsp : s.Perm elems := List.perm_insertionSort _ _
  have hsorted : List.Sorted (fun d e => pyKey d ≤ pyKey e) s :=
    List.sorted_insertionSort _ _
  have hkeys_sorted : List.Pairwise (fun a b : ℤ => a ≤ b) (s.map pyKey) :=
    List.pairwise_map.2 hsorted
  have htarget_sorted :
      List.Pairwise (fun a b : ℤ => a ≤ b) (List.map (fun j : ℕ => (j : ℤ)) (List.range N)) :=
    List.pairwise_map.2 ((List.pairwise_lt_range N).imp
      (fun h => by exact_mod_cast Nat.le_of_lt h))
  have hkeys_perm : (s.map pyKey).Perm (List.map (fun j : ℕ => (j : ℤ)) (List.range N)) :=
    (hsp.map pyKey).trans hperm
  have hkeys_eq : s.map pyKey = List.map (fun j : ℕ => (j : ℤ)) (List.range N) :=
    List.eq_of_perm_of_sorted hkeys_perm hkeys_sorted htarget_sorted
  have hslen : s.length = N := by
    have h := hsp.length_eq
    omega
  have hnodup : (s.map pyKey).Nodup := by
    rw [hkeys_eq]
    exact List.Nodup.map (fun a b h => by exact_mod_cast h) (List.nodup_range N)
  have hes : e ∈ s := hsp.mem_iff.2 he
  obtain ⟨k, hk, hek⟩ := List.mem_iff_getElem.1 hes
  have hkey_j : (s.map pyKey)[j]? = some (j : ℤ) := by
    rw [hkeys_eq, List.getElem?_map, List.getElem?_range hj]
    rfl
  have hkm : k < (s.map pyKey).length := by
    rw [List.length_map]
    exact hk
  have hkey_k : (s.map pyKey)[k]? = some (j : ℤ) := by
    rw [List.getElem?_eq_getElem hkm, List.getElem_map, hek, hkey]
  have hkeq : k = j := List.getElem?_inj hkm hnodup (by rw [hkey_k, hkey_j])
  subst hkeq
  unfold reconcile
  rw [← hs]
  have hkr : k < (s.map RespElem.payload).length := by
    rw [List.length_map]
    exact hk
  rw [List.getElem?_eq_getElem hkr, List.getElem_map, hek]

/-- **C2 (counterexample).** The claim says the client verifies a 1:1 match
of the echoed ids with `0..N_batch-1`, rejecting responses with missing or
duplicate ids.  The code only checks the type and length of the response;
here a length-2 response whose two elements both carry id 1 (so id 0 is
missing and id 1 duplicated) is accepted and its payloads returned, not
rejected with `Failure` sentinels. -/
theorem dup_ids_not_rejected :
    labelBatch (fun _ => .ok (.list [⟨some 1, 10⟩, ⟨some 1, 20⟩])) ["r0", "r1"] =
      [some 10, some 20] ∧
    labelBatch (fun _ => .ok (.list [⟨some 1, 10⟩, ⟨some 1, 20⟩])) ["r0", "r1"] ≠
      List.replicate 2 (none : Option ℕ) := by
  decide

/-- **C2 (amended).** For every non-empty batch whose service response is a
list of the correct length, the client sorts the returned elements by their
echoed local id (stably, a missing id defaulting to 0) and strips the local
id; it does **not** verify a 1:1 match, but whenever the echoed ids are
exactly a permutation of `0..N_batch-1`, the result at position `j` is the
payload of the element echoed with id `j`, so for any completion order of
concurrently running batches the final `ResultTable` entry at global index
`g` is the annotation of input record `g`. -/
theorem reconcile_positional_correct (A : Type) (n B : ℕ) (hB : 1 ≤ B)
    (svc : ℕ → ℕ → Attempt A) (texts : ℕ → List String)
    (elems : ℕ → List (RespElem A))
    (hresp : ∀ b, (callApi (svc b)).outcome = .ok (.list (elems b)))
    (hlen : ∀ b, (texts b).length = batchEnd n B b - batchStart B b)
    (helen : ∀ b, (elems b).length = (texts b).length)
    (hids : ∀ b, ((elems b).map pyKey).Perm
      (List.map (fun j : ℕ => (j : ℤ)) (List.range (texts b).length)))
    (order : List ℕ) (hcov : ∀ b, b < numBatches n B → b ∈ order)
    (g : ℕ) (hg : g < n)
    (e : RespElem A) (he : e ∈ elems (g / B)) (hkey : pyKey e = ((g % B : ℕ) : ℤ)) :
    runBatches B (fun b => labelBatch (svc b) (texts b)) (fun _ => none) order g =
      some e.payload := by
  have hrows : ∀ b, labelBatch (svc b) (texts b) = (reconcile (elems b)).map some := by
    intro b
    unfold labelBatch
    rw [hresp b]
    simp [helen b]
  have hrlen : ∀ b, (labelBatch (svc b) (texts b)).length =
      batchEnd n B b - batchStart B b := by
    intro b
    rw [hrows b, List.length_map]
    unfold reconcile pySorted
    rw [List.length_map, List.length_insertionSort, helen b, hlen b]
  rw [runBatches_eq n B hB _ hrlen _ order g]
  have hgB : g / B < numBatches n B := div_lt_numBatches n B g hB hg
  rw [if_pos ⟨hcov _ hgB, hg⟩, hrows (g / B)]
  have hmod : g % B < (texts (g / B)).length := by
    rw [hlen (g / B)]
    have h1 : inBatch n B g (g / B) := (inBatch_iff n B g (g / B) hB).2 ⟨rfl, hg⟩
    obtain ⟨h2, h3⟩ := h1
    simp only [batchStart, batchEnd] at h2 h3 ⊢
    have hd := Nat.div_add_mod g B
    have hmul : g / B * B = B * (g / B) := Nat.mul_comm _ _
    omega
  have hrec := reconcile_getElem A (elems (g / B)) (texts (g / B)).length
    (helen (g / B)) (hids (g / B)) (g % B) hmod e he hkey
  have hreclen : g % B < (reconcile (elems (g / B))).length := by
    unfold reconcile pySorted
    rw [List.length_map, List.length_insertionSort, helen (g / B)]
    exact hmod
  rw [List.getElem?_eq_getElem hreclen] at hrec
  have hmap : ((reconcile (elems (g / B))).map some).getD (g % B) none =
      some ((reconcile (elems (g / B)))[g % B]) := by
    have hmlen : g % B < ((reconcile (elems (g / B))).map some).length := by
      rw [List.length_map]; exact hreclen
    rw [List.getD_eq_getElem _ _ hmlen, List.getElem_map]
  rw [hmap]
  rw [Option.some_inj.1 hrec]

/-- Witness for `reconcile_positional_correct`: two one-record batches
(`n = 2`, `B = 1`), the single response element of batch 1 echoed with id 0,
completion order `[1, 0]`. -/
theorem reconcile_positional_correct_witness :
    runBatches 1
      (fun b => labelBatch
        (fun _ => .ok (.list (if b < 2 then [⟨some 0, 10 + b⟩] else [])))
        (if b < 2 then ["x"] else []))
      (fun _ => none) [1, 0] 1 = some 11 := by
  have h := reconcile_positional_correct ℕ 2 1 (by decide)
    (fun b _ => .ok (.list (if b < 2 then [⟨some 0, 10 + b⟩] else [])))
    (fun b => if b < 2 then ["x"] else [])
    (fun b => if b < 2 then [⟨some 0, 10 + b⟩] else [])
    (fun b => rfl)
    (fun b => by
      rcases b with _ | _ | b <;> simp [batchStart, batchEnd])
    (fun b => by by_cases hb : b < 2 <;> simp [hb])
    (fun b => by
      beta_reduce
      by_cases hb : b < 2
      · rw [if_pos hb, if_pos hb]
        exact List.Perm.refl _
      · rw [if_neg hb, if_neg hb]
        exact List.Perm.refl _)
    [1, 0] (fun b hb => by
      have : b < 2 := by
        have h2 : numBatches 2 1 = 2 := by decide
        omega
      interval_cases b <;> simp)
    1 (by decide) ⟨some 0, 11⟩ (by norm_num) (by decide)
  simpa using h

/-! ### Resume: pending-batch computation and run equivalence -/

/-- `pending_batches = [b for b in range(num_batches) if b not in completed_batches]`. -/
def pendingBatches (numB : Nat) (completed : List Nat) : List Nat :=
  (List.range numB).filter (fun b => decide (b ∉ completed))

/-- **C6.** Assuming deterministic service responses (each batch `b` always
resolves to the same row list `rows b`), an uninterrupted run — the batches
written in any completion order covering all of them — produces the same
final `ResultTable` as interrupting after writing the batches `S` and
resuming from the checkpoint; and the pending work recomputed on resume is
exactly the set of batch indices not in the checkpoint's
`completed_batches`, processed in any order. -/
theorem resume_equivalence (A : Type) (n B : ℕ) (hB : 1 ≤ B)
    (rows : ℕ → List (Option A))
    (hlen : ∀ b, (rows b).length = batchEnd n B b - batchStart B b)
    (order1 : List ℕ) (hcov1 : ∀ b, b < numBatches n B → b ∈ order1)
    (S : List ℕ) (order2 : List ℕ)
    (h2 : ∀ b, b ∈ order2 ↔ b ∈ pendingBatches (numBatches n B) S) :
    (∀ b, b ∈ pendingBatches (numBatches n B) S ↔ (b < numBatches n B ∧ b ∉ S)) ∧
    ∀ i, runBatches B rows (fun _ => none) order1 i =
      runBatches B rows (runBatches B rows (fun _ => none) S) order2 i := by
  have hpend : ∀ b, b ∈ pendingBatches (numBatches n B) S ↔
      (b < numBatches n B ∧ b ∉ S) := by
    intro b
    unfold pendingBatches
    simp [List.mem_filter, List.mem_range]
  refine ⟨hpend, ?_⟩
  intro i
  rw [runBatches_eq n B hB rows hlen _ order1 i,
    runBatches_eq n B hB rows hlen _ order2 i,
    runBatches_eq n B hB rows hlen _ S i]
  by_cases hin : i < n
  · have hiB : i / B < numBatches n B := div_lt_numBatches n B i hB hin
    rw [if_pos ⟨hcov1 _ hiB, hin⟩]
    by_cases hS : i / B ∈ S
    · have hnp : ¬ (i / B ∈ order2 ∧ i < n) := by
        rintro ⟨hmem, hlt⟩
        exact ((hpend _).1 ((h2 _).1 hmem)).2 hS
      rw [if_neg hnp, if_pos ⟨hS, hin⟩]
    · have hp : i / B ∈ order2 := (h2 _).2 ((hpend _).2 ⟨hiB, hS⟩)
      rw [if_pos ⟨hp, hin⟩]
  · rw [if_neg (fun h => hin h.2), if_neg (fun h => hin h.2),
      if_neg (fun h => hin h.2)]

/-- Witness for `resume_equivalence`: two one-record batches, uninterrupted
completion order `[1, 0]` versus writing batch `1`, checkpointing, and
resuming with pending `[0]`. -/
theorem resume_equivalence_witness :
    (∀ b, b ∈ pendingBatches (numBatches 2 1) [1] ↔ (b < numBatches 2 1 ∧ b ∉ [1])) ∧
    ∀ i, runBatches 1 (fun b => if b < 2 then [some b] else [])
        (fun _ => (none : Option ℕ)) [1, 0] i =
      runBatches 1 (fun b => if b < 2 then [some b] else [])
        (runBatches 1 (fun b => if b < 2 then [some b] else [])
          (fun _ => none) [1]) [0] i :=
  resume_equivalence ℕ 2 1 (by decide)
    (fun b => if b < 2 then [some b] else [])
    (fun b => by rcases b with _ | _ | b <;> simp [batchStart, batchEnd])
    [1, 0]
    (fun b hb => by
      have h2 : numBatches 2 1 = 2 := by decide
      rw [h2] at hb
      interval_cases b <;> decide)
    [1] [0] (fun b => Iff.rfl)

/-! ### Controller: checkpoint save / cleanup lifecycle

`main_async` gathers all pending batch tasks.  `handle_batch` always adds its
batch index to `completed_batches` — also when `label_batch_async` resolved
to `Failure` sentinels — and saves a checkpoint every `CHECKPOINT_INTERVAL`
completions.  On `KeyboardInterrupt` a final checkpoint is saved and the run
stops with the file retained; when the gather finishes, the outputs are
written and `cleanup_checkpoint` deletes the file unconditionally. -/

/-- Checkpoint file content written by `save_checkpoint`. -/
structure CkData (A : Type) where
  lastBatch : Nat
  labels : Nat → Option A
  completed : List Nat

/-- Python `set.add` on the completed set, modelled as a duplicate-free list. -/
def addCompleted (b : Nat) (completed : List Nat) : List Nat :=
  if b ∈ completed then completed else b :: completed

/-- In-memory run state plus the durable checkpoint file (`none` = absent). -/
structure CRunState (A : Type) where
  labels : Nat → Option A
  completed : List Nat
  counter : Nat
  ckFile : Option (CkData A)

/-- `max(completed_batches) if completed_batches else 0`. -/
def maxOr0 (l : List Nat) : Nat := l.foldr Nat.max 0

/-- How a run of `main_async` ended. -/
inductive RunEnd
  | completed
  | interrupted
deriving DecidableEq

/-- The completion bookkeeping of `handle_batch` (the body of
`async with lock`), executed once per resolved batch: slice-write the rows,
add the batch index, bump the counter, save a checkpoint every `interval`
completions. -/
def handleBatchSeq (B interval : Nat) (rows : Nat → List (Option A))
    (st : CRunState A) (b : Nat) : CRunState A :=
  let labels' := writeSlice st.labels (batchStart B b) (rows b)
  let completed' := addCompleted b st.completed
  let counter' := st.counter + 1
  { labels := labels'
    completed := completed'
    counter := counter'
    ckFile :=
      if counter' % interval = 0 then some ⟨b, labels', completed'⟩ else st.ckFile }

/-- The controller tail of `main_async`: process pending batches in the
completion order; on `KeyboardInterrupt` after `k` completions, save a final
checkpoint (`max(completed_batches) if completed_batches else 0` as the last
batch) and stop retaining the file; when the gather finishes, write the
outputs and `cleanup_checkpoint` deletes the file. -/
def controllerRun (B interval : Nat) (rows : Nat → List (Option A))
    (st0 : CRunState A) (pending : List Nat) (interruptAfter : Option Nat) :
    CRunState A × RunEnd :=
  match interruptAfter with
  | some k =>
    let st := (pending.take k).foldl (handleBatchSeq B interval rows) st0
    ({ st with ckFile := some ⟨maxOr0 st.completed, st.labels, st.completed⟩ },
      .interrupted)
  | none =>
    let st := pending.foldl (handleBatchSeq B interval rows) st0
    ({ st with ckFile := none }, .completed)

lemma mem_addCompleted (b x : Nat) (l : List Nat) :
    x ∈ addCompleted b l ↔ x = b ∨ x ∈ l := by
  unfold addCompleted
  split
  · next h =>
    constructor
    · exact fun hx => Or.inr hx
    · rintro (rfl | hx)
      · exact h
      · exact hx
  · simp [List.mem_cons]

lemma mem_completed_foldl (A : Type) (B interval : Nat)
    (rows : Nat → List (Option A)) (st : CRunState A) (l : List Nat) (b : Nat)
    (h : b ∈ st.completed ∨ b ∈ l) :
    b ∈ (l.foldl (handleBatchSeq B interval rows) st).completed := by
  induction l generalizing st with
  | nil =>
    rcases h with h | h
    · exact h
    · exact absurd h (List.not_mem_nil b)
  | cons c rest ih =>
    show b ∈ (rest.foldl (handleBatchSeq B interval rows)
      (handleBatchSeq B interval rows st c)).completed
    apply ih
    rcases h with h | h
    · exact Or.inl ((mem_addCompleted c b st.completed).2 (Or.inr h))
    · rcases List.mem_cons.1 h with rfl | h
      · exact Or.inl ((mem_addCompleted b b st.completed).2 (Or.inl rfl))
      · exact Or.inr h

/-- **C7 (counterexample).** The claim says that whenever any batch ended as
exhausted-retry `Failure` sentinels, the checkpoint is retained and marks
those batches as not completed.  In the code, `handle_batch` adds failed
batches to `completed_batches` like successful ones, and a run whose gather
finishes normally deletes the checkpoint even if batches failed: here batch
1 resolves to `[None]` (all-`Failure`), yet the final checkpoint file is
deleted and batch 1 is marked completed. -/
theorem checkpoint_deleted_despite_failure :
    ((controllerRun 1 5 (fun b => if b = 0 then [some 7] else [none])
        ⟨fun _ => (none : Option ℕ), [], 0, none⟩ [0, 1] none).1.ckFile).isNone = true ∧
    1 ∈ (controllerRun 1 5 (fun b => if b = 0 then [some 7] else [none])
        ⟨fun _ => (none : Option ℕ), [], 0, none⟩ [0, 1] none).1.completed ∧
    (controllerRun 1 5 (fun b => if b = 0 then [some 7] else [none])
        ⟨fun _ => (none : Option ℕ), [], 0, none⟩ [0, 1] none).1.labels 1 = none := by
  refine ⟨rfl, ?_, rfl⟩
  show 1 ∈ [1, 0]
  decide

/-- **C7 (amended).** The checkpoint file is deleted exactly when the run
completes with zero pending batches left unprocessed (the gather finishes
uninterrupted); it is retained whenever the run is interrupted, and then
marks exactly the not-yet-processed batches as pending.  Batches that ended
as exhausted-retry `Failure` sentinels are added to `completed_batches` like
successful ones, so per-batch failure neither retains the checkpoint nor
marks the batch as not completed. -/
theorem checkpoint_cleared_iff_uninterrupted (A : Type) (B interval : ℕ)
    (rows : ℕ → List (Option A)) (st0 : CRunState A) (pending : List ℕ) :
    ((controllerRun B interval rows st0 pending none).1.ckFile = none ∧
      (controllerRun B interval rows st0 pending none).2 = .completed) ∧
    (∀ k, ∃ ck,
      (controllerRun B interval rows st0 pending (some k)).1.ckFile = some ck ∧
      (controllerRun B interval rows st0 pending (some k)).2 = .interrupted ∧
      ck.completed =
        ((pending.take k).foldl (handleBatchSeq B interval rows) st0).completed) ∧
    (∀ b ∈ pending, b ∈ (controllerRun B interval rows st0 pending none).1.completed) := by
  refine ⟨⟨rfl, rfl⟩, fun k => ⟨_, rfl, rfl, rfl⟩, fun b hb => ?_⟩
  show b ∈ (pending.foldl (handleBatchSeq B interval rows) st0).completed
  exact mem_completed_foldl A B interval rows st0 pending b (Or.inr hb)

/-- Witness for `checkpoint_cleared_iff_uninterrupted` at a concrete run with
a failing batch. -/
theorem checkpoint_cleared_iff_uninterrupted_witness :
    ((controllerRun 1 5 (fun b => if b = 0 then [some 7] else [none])
        ⟨fun _ => (none : Option ℕ), [], 0, none⟩ [0, 1] none).1.ckFile = none ∧
      (controllerRun 1 5 (fun b => if b = 0 then [some 7] else [none])
        ⟨fun _ => (none : Option ℕ), [], 0, none⟩ [0, 1] none).2 = .completed) ∧
    (∀ k, ∃ ck,
      (controllerRun 1 5 (fun b => if b = 0 then [some 7] else [none])
        ⟨fun _ => (none : Option ℕ), [], 0, none⟩ [0, 1] (some k)).1.ckFile = some ck ∧
      (controllerRun 1 5 (fun b => if b = 0 then [some 7] else [none])
        ⟨fun _ => (none : Option ℕ), [], 0, none⟩ [0, 1] (some k)).2 = .interrupted ∧
      ck.completed = (([0, 1].take k).foldl
        (handleBatchSeq 1 5 (fun b => if b = 0 then [some 7] else [none]))
        ⟨fun _ => (none : Option ℕ), [], 0, none⟩).completed) ∧
    (∀ b ∈ [0, 1],
      b ∈ (controllerRun 1 5 (fun b => if b = 0 then [some 7] else [none])
        ⟨fun _ => (none : Option ℕ), [], 0, none⟩ [0, 1] none).1.completed) :=
  checkpoint_cleared_iff_uninterrupted ℕ 1 5
    (fun b => if b = 0 then [some 7] else [none])
    ⟨fun _ => none, [], 0, none⟩ [0, 1]

/-! ### Input validation (`main_async`, before any dispatch)

The code checks `paths['input'].exists()` and, after loading the dataframe,
`TEXT_COL not in df.columns`; either failure calls `sys.exit(1)` before any
batch is built or any service call is made.  A present file with zero rows
passes both checks. -/

/-- The input as `main_async` sees it: whether the parquet file exists, the
dataframe's columns, and its rows (one text per row after
`df[TEXT_COL].astype(str).tolist()`). -/
structure InputData where
  fileExists : Bool
  columns : List String
  rows : List String

/-- The two fatal input-validation failures of `main_async`. -/
inductive ValError
  | fileNotFound
  | missingTextColumn
deriving DecidableEq

/-- The validation prefix of `main_async`: missing file, then missing text
column, else the texts list. -/
def validateInput (inp : InputData) : Except ValError (List String) :=
  if inp.fileExists = false then .error .fileNotFound
  else if TEXT_COL ∈ inp.columns then .ok inp.rows
  else .error .missingTextColumn

/-- Validation followed by partitioning: on success `main_async` proceeds to
dispatch `numBatches` batches; on failure it exits before any batch exists. -/
def mainPrep (inp : InputData) (B : Nat) : Except ValError (List String × Nat) :=
  match validateInput inp with
  | .error e => .error e
  | .ok texts => .ok (texts, numBatches texts.length B)

/-- **C9 (counterexample).** The claim says an empty record source fails
with a fatal input-validation error before any batch is dispatched.  An
existing input file that has the text column but zero rows passes both
checks of `main_async` — validation succeeds with an empty text list and the
run proceeds (with `numBatches 0 B = 0` batches), rather than aborting. -/
theorem empty_source_passes_validation :
    validateInput ⟨true, ["review_id", "cleaned_text"], []⟩ = .ok [] ∧
    mainPrep ⟨true, ["review_id", "cleaned_text"], []⟩ 50 = .ok ([], 0) := by
  constructor <;> rfl

/-- **C9 (amended).** The fatal input-validation failures are exactly a
missing input file and a missing text column: in those cases the run aborts
before any batch is dispatched (no partition, no service call, no output),
and the error is reported to the caller; an empty-but-well-formed record
source is not rejected and proceeds with zero batches. -/
theorem validation_aborts_iff (inp : InputData) (B : Nat) :
    ((∃ e, validateInput inp = .error e) ↔
      (inp.fileExists = false ∨ TEXT_COL ∉ inp.columns)) ∧
    (∀ e, validateInput inp = .error e → mainPrep inp B = .error e) ∧
    (inp.fileExists = true → TEXT_COL ∈ inp.columns →
      mainPrep inp B = .ok (inp.rows, numBatches inp.rows.length B)) := by
  refine ⟨⟨?_, ?_⟩, ?_, ?_⟩
  · rintro ⟨e, he⟩
    unfold validateInput at he
    by_cases hf : inp.fileExists = false
    · exact Or.inl hf
    · rw [if_neg hf] at he
      by_cases hc : TEXT_COL ∈ inp.columns
      · rw [if_pos hc] at he
        exact absurd he (by simp)
      · exact Or.inr hc
  · rintro (hf | hc)
    · exact ⟨.fileNotFound, by unfold validateInput; rw [if_pos hf]⟩
    · by_cases hf : inp.fileExists = false
      · exact ⟨.fileNotFound, by unfold validateInput; rw [if_pos hf]⟩
      · exact ⟨.missingTextColumn, by unfold validateInput; rw [if_neg hf, if_neg hc]⟩
  · intro e he
    unfold mainPrep
    rw [he]
  · intro hf hc
    unfold mainPrep validateInput
    rw [if_neg (by simp [hf]), if_pos hc]

/-- Witness for `validation_aborts_iff`: a missing input file aborts before
dispatch with the error reported. -/
theorem validation_aborts_iff_witness :
    validateInput ⟨false, ["cleaned_text"], []⟩ = .error .fileNotFound ∧
    mainPrep ⟨false, ["cleaned_text"], []⟩ 50 = .error .fileNotFound :=
  ⟨rfl, (validation_aborts_iff ⟨false, ["cleaned_text"], []⟩ 50).2.1 .fileNotFound rfl⟩

/-! ### Checkpoint loading (`load_checkpoint`) and seeding

`load_checkpoint` opens the file if it exists and `json.load`s it inside a
`try`; the `try` block also reads `checkpoint['last_batch']`, so **any**
exception while reading or parsing is caught and the function falls through
to `return None`.  `main_async` then seeds a fresh state. -/

/-- `load_checkpoint`: `file` is the raw file content (`none` when the file
does not exist), `parse` models `json.load` plus the `checkpoint['last_batch']`
access — it returns `none` whenever any of that raises. -/
def load_checkpoint (F A : Type) (parse : F → Option (CkData A))
    (file : Option F) : Option (CkData A) :=
  match file with
  | none => none
  | some f =>
    match parse f with
    | some ck => some ck
    | none => none

/-- The seeding branch of `main_async` (lines 256-264): labels, completed
set, and pending list, from a loaded checkpoint or from scratch. -/
def seedState (A : Type) (numB : Nat) (ck : Option (CkData A)) :
    (Nat → Option A) × List Nat × List Nat :=
  match ck with
  | some c => (c.labels, c.completed, pendingBatches numB c.completed)
  | none => (fun _ => none, [], List.range numB)

/-- **C10.** If a checkpoint file exists but cannot be read or parsed (any
exception during load), `load_checkpoint` returns `None` — the no-checkpoint
result — instead of propagating the error, and `main_async` falls back to a
fresh start: an all-absent `ResultTable`, an empty completed-batch set, and
all batches pending. -/
theorem load_checkpoint_fallback (F A : Type) (parse : F → Option (CkData A))
    (f : F) (hf : parse f = none) (numB : Nat) :
    load_checkpoint F A parse (some f) = none ∧
    (∀ i, (seedState A numB (load_checkpoint F A parse (some f))).1 i = none) ∧
    (seedState A numB (load_checkpoint F A parse (some f))).2.1 = [] ∧
    (seedState A numB (load_checkpoint F A parse (some f))).2.2 = List.range numB := by
  have hload : load_checkpoint F A parse (some f) = none := by
    unfold load_checkpoint
    simp only []
    rw [hf]
  refine ⟨hload, ?_, ?_, ?_⟩ <;> rw [hload] <;> intros <;> rfl

/-- Witness for `load_checkpoint_fallback`: a corrupt (unparseable) file. -/
theorem load_checkpoint_fallback_witness :
    load_checkpoint String ℕ (fun _ => none) (some "corrupt") = none ∧
    (∀ i, (seedState ℕ 3 (load_checkpoint String ℕ (fun _ => none)
      (some "corrupt"))).1 i = none) ∧
    (seedState ℕ 3 (load_checkpoint String ℕ (fun _ => none)
      (some "corrupt"))).2.1 = [] ∧
    (seedState ℕ 3 (load_checkpoint String ℕ (fun _ => none)
      (some "corrupt"))).2.2 = List.range 3 :=
  load_checkpoint_fallback String ℕ (fun _ => none) "corrupt" rfl 3

/-! ### Concurrency gate: `asyncio.Semaphore(MAX_CONCURRENCY)`

`main_async` creates `sem = asyncio.Semaphore(MAX_CONCURRENCY)` and admits a
task per pending batch at once.  Inside `call_api` the network request is
the only code under `async with sem:`; message building happens before,
JSON parsing / validation / reconciliation after `call_api` returns, and
tenacity's backoff sleep runs between `call_api` invocations — all outside
the gate (an exception inside `async with` releases the semaphore before
tenacity sleeps).  We model each batch task's position relative to the gate
and prove the permit accounting. -/

/-- Program points of one batch task relative to the semaphore. -/
inductive TaskPhase
  | idle                -- admitted, before its first call_api attempt
  | waitSem (attempt : Nat)  -- blocked on `async with sem`
  | inCall (attempt : Nat)   -- holding a permit, network request outstanding
  | backoff (attempt : Nat)  -- tenacity sleeping before the next attempt
  | validating          -- response returned; JSON parsing / reconciliation
  | finishedTask        -- label_batch_async resolved
deriving DecidableEq

/-- A task holds a semaphore permit exactly while its request is in flight. -/
def isInCall : TaskPhase → Bool
  | .inCall _ => true
  | _ => false

/-- The scheduler state: one phase per admitted batch task, plus the
semaphore's free-permit counter. -/
structure SemSys where
  tasks : List TaskPhase
  avail : Nat

/-- All tasks admitted, none started, all `C` permits free. -/
def initSem (numTasks C : Nat) : SemSys := ⟨List.replicate numTasks .idle, C⟩

/-- One scheduler transition.  Acquisition happens immediately before the
request is issued; every way a request resolves (success, retryable error,
exhausted retries, non-retryable error) releases the permit first; backoff
and validation run without a permit. -/
inductive SemStep : SemSys → SemSys → Prop
  | start (s : SemSys) (t : Nat) (h : t < s.tasks.length)
      (hp : s.tasks[t] = .idle) :
      SemStep s ⟨s.tasks.set t (.waitSem 1), s.avail⟩
  | acquire (s : SemSys) (t : Nat) (h : t < s.tasks.length) (k : Nat)
      (hp : s.tasks[t] = .waitSem k) (ha : 0 < s.avail) :
      SemStep s ⟨s.tasks.set t (.inCall k), s.avail - 1⟩
  | respOk (s : SemSys) (t : Nat) (h : t < s.tasks.length) (k : Nat)
      (hp : s.tasks[t] = .inCall k) :
      SemStep s ⟨s.tasks.set t .validating, s.avail + 1⟩
  | respRetryable (s : SemSys) (t : Nat) (h : t < s.tasks.length) (k : Nat)
      (hp : s.tasks[t] = .inCall k) (hk : k < MAX_ATTEMPTS) :
      SemStep s ⟨s.tasks.set t (.backoff k), s.avail + 1⟩
  | respExhausted (s : SemSys) (t : Nat) (h : t < s.tasks.length)
      (hp : s.tasks[t] = .inCall MAX_ATTEMPTS) :
      SemStep s ⟨s.tasks.set t .finishedTask, s.avail + 1⟩
  | respFatal (s : SemSys) (t : Nat) (h : t < s.tasks.length) (k : Nat)
      (hp : s.tasks[t] = .inCall k) :
      SemStep s ⟨s.tasks.set t .finishedTask, s.avail + 1⟩
  | wake (s : SemSys) (t : Nat) (h : t < s.tasks.length) (k : Nat)
      (hp : s.tasks[t] = .backoff k) :
      SemStep s ⟨s.tasks.set t (.waitSem (k + 1)), s.avail⟩
  | validated (s : SemSys) (t : Nat) (h : t < s.tasks.length)
      (hp : s.tasks[t] = .validating) :
      SemStep s ⟨s.tasks.set t .finishedTask, s.avail⟩

/-- States reachable from an initial scheduler state. -/
inductive SemReachable (init : SemSys) : SemSys → Prop
  | refl : SemReachable init init
  | step {s s' : SemSys} : SemReachable init s → SemStep s s' → SemReachable init s'

lemma countP_set {α : Type} (p : α → Bool) (l : List α) (i : Nat) (v : α)
    (h : i < l.length) :
    (l.set i v).countP p + (if p (l[i]) then 1 else 0) =
      l.countP p + (if p v then 1 else 0) := by
  induction l generalizing i with
  | nil => exact absurd h (by simp)
  | cons a l ih =>
    cases i with
    | zero =>
      simp only [List.set_cons_zero, List.getElem_cons_zero, List.countP_cons]
      omega
    | succ i =>
      have hi : i < l.length := by simpa using h
      simp only [List.set_cons_succ, List.getElem_cons_succ, List.countP_cons]
      have := ih i hi
      omega

/-- **C1.** In every state reachable from an admission of any number of
batch tasks under concurrency limit `C`, at most `C` network calls are
outstanding; moreover the free permits plus the outstanding calls always
equal `C` exactly — a permit is held only by a task whose request is in
flight, so tasks validating or parsing a completed response, reconciling,
or sleeping a retry backoff hold no permit and do not count against the
concurrency budget, and the gate is acquired only at the transition that
issues the request. -/
theorem concurrency_bound (numTasks C : Nat) (s : SemSys)
    (h : SemReachable (initSem numTasks C) s) :
    s.tasks.countP isInCall ≤ C ∧
    s.avail + s.tasks.countP isInCall = C := by
  have hinv : s.avail + s.tasks.countP isInCall = C := by
    induction h with
    | refl =>
      show C + (List.replicate numTasks TaskPhase.idle).countP isInCall = C
      rw [List.countP_replicate]
      simp [isInCall]
    | @step s s' hr hs ih =>
      cases hs with
      | start t h hp =>
        have hc := countP_set isInCall s.tasks t (.waitSem 1) h
        rw [hp] at hc
        simp [isInCall] at hc
        dsimp only
        omega
      | acquire t h k hp ha =>
        have hc := countP_set isInCall s.tasks t (.inCall k) h
        rw [hp] at hc
        simp [isInCall] at hc
        dsimp only
        omega
      | respOk t h k hp =>
        have hc := countP_set isInCall s.tasks t .validating h
        rw [hp] at hc
        simp [isInCall] at hc
        dsimp only
        omega
      | respRetryable t h k hp hk =>
        have hc := countP_set isInCall s.tasks t (.backoff k) h
        rw [hp] at hc
        simp [isInCall] at hc
        dsimp only
        omega
      | respExhausted t h hp =>
        have hc := countP_set isInCall s.tasks t .finishedTask h
        rw [hp] at hc
        simp [isInCall] at hc
        dsimp only
        omega
      | respFatal t h k hp =>
        have hc := countP_set isInCall s.tasks t .finishedTask h
        rw [hp] at hc
        simp [isInCall] at hc
        dsimp only
        omega
      | wake t h k hp =>
        have hc := countP_set isInCall s.tasks t (.waitSem (k + 1)) h
        rw [hp] at hc
        simp [isInCall] at hc
        dsimp only
        omega
      | validated t h hp =>
        have hc := countP_set isInCall s.tasks t .finishedTask h
        rw [hp] at hc
        simp [isInCall] at hc
        dsimp only
        omega
  exact ⟨by omega, hinv⟩

/-- Witness for `concurrency_bound`: the admission state of 3 batch tasks
under `C = 2`. -/
theorem concurrency_bound_witness :
    (initSem 3 2).tasks.countP isInCall ≤ 2 ∧
    (initSem 3 2).avail + (initSem 3 2).tasks.countP isInCall = 2 :=
  concurrency_bound 3 2 (initSem 3 2) SemReachable.refl

/-! ### Completion bookkeeping: the `async with lock` critical section

`handle_batch` awaits `label_batch_async` and then, under `async with lock`,
performs in order: (a) `all_labels[start:end] = labels`, (b)
`completed_batches.add(batch_idx)`, (c) `processed_count += 1`, and (d) when
`processed_count % CHECKPOINT_INTERVAL == 0`, `save_checkpoint` /
`save_intermediate`.  We model one task per pending batch with a program
counter through these steps, the `asyncio.Lock`, and a ghost list recording
every snapshot handed to `save_checkpoint`.  The rows a batch writes are
opaque to the executor (`handle_batch` never inspects them), so writtenness
is recorded with `some`. -/

/-- Program points of one batch task relative to the lock. -/
inductive CPhase
  | running        -- awaiting label_batch_async
  | waitLock       -- results ready, blocked on `async with lock`
  | crit (pc : Nat)  -- holding the lock; pc of steps (a)-(c) already done
  | doneTask
deriving DecidableEq

/-- A task is inside the critical section. -/
def isCrit : CPhase → Bool
  | .crit _ => true
  | _ => false

/-- The task has executed step (b) (`completed_batches.add`). -/
def pastAdd : CPhase → Bool
  | .crit pc => decide (2 ≤ pc)
  | .doneTask => true
  | _ => false

/-- The task has executed step (c) (`processed_count += 1`). -/
def pastCount : CPhase → Bool
  | .crit pc => decide (3 ≤ pc)
  | .doneTask => true
  | _ => false

@[simp] lemma isCrit_running : isCrit CPhase.running = false := rfl
@[simp] lemma isCrit_waitLock : isCrit CPhase.waitLock = false := rfl
@[simp] lemma isCrit_crit (pc : Nat) : isCrit (CPhase.crit pc) = true := rfl
@[simp] lemma isCrit_doneTask : isCrit CPhase.doneTask = false := rfl
@[simp] lemma pastAdd_running : pastAdd CPhase.running = false := rfl
@[simp] lemma pastAdd_waitLock : pastAdd CPhase.waitLock = false := rfl
@[simp] lemma pastAdd_doneTask : pastAdd CPhase.doneTask = true := rfl
@[simp] lemma pastAdd_crit (pc : Nat) : pastAdd (CPhase.crit pc) = decide (2 ≤ pc) := rfl
@[simp] lemma pastCount_running : pastCount CPhase.running = false := rfl
@[simp] lemma pastCount_waitLock : pastCount CPhase.waitLock = false := rfl
@[simp] lemma pastCount_doneTask : pastCount CPhase.doneTask = true := rfl
@[simp] lemma pastCount_crit (pc : Nat) : pastCount (CPhase.crit pc) = decide (3 ≤ pc) := rfl

/-- Executor state: one `(batch index, phase)` per admitted task, the shared
`all_labels` table, `completed_batches`, `processed_count`, the lock, and the
ghost history of snapshots passed to `save_checkpoint`. -/
structure ExecSys (A : Type) where
  tasks : List (Nat × CPhase)
  labels : Nat → Option A
  completed : List Nat
  counter : Nat
  lockHeld : Bool
  checkpoints : List ((Nat → Option A) × List Nat)

/-- Step (a): the slice write `all_labels[start : start+len(rows)] = rows`,
with the row values opaque. -/
def writeRows (tbl : Nat → Option A) (start : Nat) (rows : List A) :
    Nat → Option A :=
  fun i =>
    if start ≤ i ∧ i < start + rows.length then rows[i - start]? else tbl i

/-- Global index `i` lies in a segment of some completed batch. -/
def covered (n B : Nat) (completed : List Nat) (i : Nat) : Prop :=
  ∃ b ∈ completed, inBatch n B i b

/-- One executor transition: a batch resolves; the lock is acquired (only
when free); steps (a)-(c) run one at a time under the lock; step (d) saves a
checkpoint of the current shared state when the counter hits the interval,
then the lock is released. -/
inductive ExecStep (B interval : Nat) (res : Nat → List A) :
    ExecSys A → ExecSys A → Prop
  | resolve (s : ExecSys A) (t : Nat) (h : t < s.tasks.length) (b : Nat)
      (hp : s.tasks[t] = (b, .running)) :
      ExecStep B interval res s { s with tasks := s.tasks.set t (b, .waitLock) }
  | acquire (s : ExecSys A) (t : Nat) (h : t < s.tasks.length) (b : Nat)
      (hp : s.tasks[t] = (b, .waitLock)) (hl : s.lockHeld = false) :
      ExecStep B interval res s
        { s with tasks := s.tasks.set t (b, .crit 0), lockHeld := true }
  | stepWrite (s : ExecSys A) (t : Nat) (h : t < s.tasks.length) (b : Nat)
      (hp : s.tasks[t] = (b, .crit 0)) :
      ExecStep B interval res s
        { s with tasks := s.tasks.set t (b, .crit 1),
                 labels := writeRows s.labels (batchStart B b) (res b) }
  | stepAdd (s : ExecSys A) (t : Nat) (h : t < s.tasks.length) (b : Nat)
      (hp : s.tasks[t] = (b, .crit 1)) :
      ExecStep B interval res s
        { s with tasks := s.tasks.set t (b, .crit 2),
                 completed := addCompleted b s.completed }
  | stepCount (s : ExecSys A) (t : Nat) (h : t < s.tasks.length) (b : Nat)
      (hp : s.tasks[t] = (b, .crit 2)) :
      ExecStep B interval res s
        { s with tasks := s.tasks.set t (b, .crit 3), counter := s.counter + 1 }
  | stepCkSave (s : ExecSys A) (t : Nat) (h : t < s.tasks.length) (b : Nat)
      (hp : s.tasks[t] = (b, .crit 3)) (hm : s.counter % interval = 0) :
      ExecStep B interval res s
        { s with tasks := s.tasks.set t (b, .doneTask), lockHeld := false,
                 checkpoints := (s.labels, s.completed) :: s.checkpoints }
  | stepCkSkip (s : ExecSys A) (t : Nat) (h : t < s.tasks.length) (b : Nat)
      (hp : s.tasks[t] = (b, .crit 3)) (hm : s.counter % interval ≠ 0) :
      ExecStep B interval res s
        { s with tasks := s.tasks.set t (b, .doneTask), lockHeld := false }

/-- Executor states reachable from an initial state. -/
inductive ExecReachable (B interval : Nat) (res : Nat → List A)
    (init : ExecSys A) : ExecSys A → Prop
  | refl : ExecReachable B interval res init init
  | step {s s' : ExecSys A} : ExecReachable B interval res init s →
      ExecStep B interval res s s' → ExecReachable B interval res init s'

/-- The run start: one `running` task per pending batch, the (possibly
checkpoint-seeded) table and completed set, counter 0, lock free. -/
def initExec (A : Type) (pending : List Nat) (labels0 : Nat → Option A)
    (completed0 : List Nat) : ExecSys A :=
  ⟨pending.map (fun b => (b, .running)), labels0, completed0, 0, false, []⟩

lemma two_le_countP {α : Type} (l : List α) (p : α → Bool) (t u : Nat)
    (ht : t < l.length) (hu : u < l.length) (hne : t ≠ u)
    (hpt : p (l[t]) = true) (hpu : p (l[u]) = true) :
    2 ≤ l.countP p := by
  induction l generalizing t u with
  | nil => exact absurd ht (by simp)
  | cons a l ih =>
    rw [List.countP_cons]
    match t, u with
    | 0, 0 => exact absurd rfl hne
    | 0, u + 1 =>
      have h1 : p a = true := by simpa using hpt
      have hu' : u < l.length := by simpa using hu
      have h2 : 0 < l.countP p :=
        List.countP_pos_iff.2 ⟨l[u], List.getElem_mem hu', by simpa using hpu⟩
      rw [if_pos h1]
      omega
    | t + 1, 0 =>
      have h1 : p a = true := by simpa using hpu
      have ht' : t < l.length := by simpa using ht
      have h2 : 0 < l.countP p :=
        List.countP_pos_iff.2 ⟨l[t], List.getElem_mem ht', by simpa using hpt⟩
      rw [if_pos h1]
      omega
    | t + 1, u + 1 =>
      have ht' : t < l.length := by simpa using ht
      have hu' : u < l.length := by simpa using hu
      have h2 := ih t u ht' hu' (by omega) (by simpa using hpt) (by simpa using hpu)
      omega

lemma crit_unique {α : Type} (l : List α) (p : α → Bool) (hle : l.countP p ≤ 1)
    (t : Nat) (ht : t < l.length) (hpt : p (l[t]) = true)
    (u : Nat) (hu : u < l.length) (hne : u ≠ t) :
    p (l[u]) = false := by
  by_contra hx
  have hx' : p (l[u]) = true := by
    cases hv : p (l[u])
    · exact absurd hv hx
    · rfl
  have := two_le_countP l p t u ht hu (fun he => hne he.symm) hpt hx'
  omega

lemma countP_snd_set (p : CPhase → Bool) (l : List (Nat × CPhase)) (t : Nat)
    (h : t < l.length) (b : Nat) (old new : CPhase) (hold : l[t] = (b, old)) :
    (l.set t (b, new)).countP (fun tp => p tp.2) + cond (p old) 1 0 =
      l.countP (fun tp => p tp.2) + cond (p new) 1 0 := by
  have hc := countP_set (fun tp : Nat × CPhase => p tp.2) l t (b, new) h
  rw [hold] at hc
  simpa only [Bool.cond_eq_ite] using hc

lemma split_exists_at {α : Type} (l : List α) (t : Nat) (h : t < l.length)
    (P : α → Prop) :
    (∃ u, ∃ (hu : u < l.length), P (l[u])) ↔
      (P (l[t]) ∨ ∃ u, ∃ (hu : u < l.length), u ≠ t ∧ P (l[u])) := by
  constructor
  · rintro ⟨u, hu, hP⟩
    by_cases he : u = t
    · subst he
      exact Or.inl hP
    · exact Or.inr ⟨u, hu, he, hP⟩
  · rintro (hP | ⟨u, hu, _, hP⟩)
    · exact ⟨t, h, hP⟩
    · exact ⟨u, hu, hP⟩

lemma exists_prop_set {α : Type} (l : List α) (t : Nat) (h : t < l.length) (v : α)
    (P : α → Prop) :
    (∃ u, ∃ (hu : u < (l.set t v).length), P ((l.set t v)[u])) ↔
      (P v ∨ ∃ u, ∃ (hu : u < l.length), u ≠ t ∧ P (l[u])) := by
  constructor
  · rintro ⟨u, hu, hP⟩
    have hu' : u < l.length := by simpa using hu
    by_cases he : t = u
    · subst he
      rw [List.getElem_set, if_pos rfl] at hP
      exact Or.inl hP
    · rw [List.getElem_set, if_neg he] at hP
      exact Or.inr ⟨u, hu', fun hx => he hx.symm, hP⟩
  · rintro (hP | ⟨u, hu, hne, hP⟩)
    · refine ⟨t, by simpa using h, ?_⟩
      rw [List.getElem_set, if_pos rfl]
      exact hP
    · refine ⟨u, by simpa using hu, ?_⟩
      rw [List.getElem_set, if_neg (fun hx => hne hx.symm)]
      exact hP

lemma writeRows_isSome (A : Type) (n B : Nat)
    (tbl : Nat → Option A) (b : Nat) (rows : List A)
    (hlen : rows.length = batchEnd n B b - batchStart B b) (i : Nat) :
    (writeRows tbl (batchStart B b) rows i).isSome ↔
      (inBatch n B i b ∨ (tbl i).isSome) := by
  unfold writeRows
  by_cases hc : batchStart B b ≤ i ∧ i < batchStart B b + rows.length
  · rw [if_pos hc]
    have hlt : i - batchStart B b < rows.length := by omega
    rw [List.getElem?_eq_getElem hlt]
    simp only [Option.isSome_some, true_iff]
    left
    unfold inBatch batchStart batchEnd at *
    omega
  · rw [if_neg hc]
    constructor
    · exact fun hx => Or.inr hx
    · rintro (hx | hx)
      · exfalso
        unfold inBatch batchStart batchEnd at *
        omega
      · exact hx

/-- Some admitted task has batch index `x` and has executed step (b). -/
def taskClaims (tasks : List (Nat × CPhase)) (x : Nat) : Prop :=
  ∃ u, ∃ (hu : u < tasks.length),
    (tasks[u]).1 = x ∧ pastAdd (tasks[u]).2 = true

lemma taskClaims_set (l : List (Nat × CPhase)) (t : Nat) (h : t < l.length)
    (b : Nat) (old new : CPhase) (hold : l[t] = (b, old))
    (hsame : pastAdd old = pastAdd new) (x : Nat) :
    taskClaims (l.set t (b, new)) x ↔ taskClaims l x := by
  unfold taskClaims
  constructor
  · rintro ⟨u, hu, h1, h2⟩
    have hu' : u < l.length := by simpa using hu
    by_cases he : t = u
    · subst he
      rw [List.getElem_set, if_pos rfl] at h1 h2
      refine ⟨t, hu', ?_, ?_⟩
      · rw [hold]
        exact h1
      · rw [hold]
        show pastAdd old = true
        rw [hsame]
        exact h2
    · rw [List.getElem_set, if_neg he] at h1 h2
      exact ⟨u, hu', h1, h2⟩
  · rintro ⟨u, hu, h1, h2⟩
    by_cases he : t = u
    · subst he
      refine ⟨t, by simpa using hu, ?_, ?_⟩
      · rw [List.getElem_set, if_pos rfl]
        rw [hold] at h1
        exact h1
      · rw [List.getElem_set, if_pos rfl]
        show pastAdd new = true
        rw [← hsame]
        rw [hold] at h2
        exact h2
    · refine ⟨u, by simpa using hu, ?_, ?_⟩
      · rw [List.getElem_set, if_neg he]
        exact h1
      · rw [List.getElem_set, if_neg he]
        exact h2

lemma taskClaims_set_add (l : List (Nat × CPhase)) (t : Nat) (h : t < l.length)
    (b : Nat) (hold : l[t] = (b, .crit 1)) (x : Nat) :
    taskClaims (l.set t (b, .crit 2)) x ↔ (x = b ∨ taskClaims l x) := by
  unfold taskClaims
  constructor
  · rintro ⟨u, hu, h1, h2⟩
    have hu' : u < l.length := by simpa using hu
    by_cases he : t = u
    · subst he
      rw [List.getElem_set, if_pos rfl] at h1
      exact Or.inl h1.symm
    · rw [List.getElem_set, if_neg he] at h1 h2
      exact Or.inr ⟨u, hu', h1, h2⟩
  · rintro (rfl | ⟨u, hu, h1, h2⟩)
    · refine ⟨t, by simpa using h, ?_, ?_⟩
      · rw [List.getElem_set, if_pos rfl]
      · rw [List.getElem_set, if_pos rfl]
        rfl
    · by_cases he : t = u
      · subst he
        exfalso
        rw [hold] at h2
        simp [pastAdd] at h2
      · refine ⟨u, by simpa using hu, ?_, ?_⟩
        · rw [List.getElem_set, if_neg he]
          exact h1
        · rw [List.getElem_set, if_neg he]
          exact h2

lemma covered_addCompleted (n B b : Nat) (completed : List Nat) (i : Nat) :
    covered n B (addCompleted b completed) i ↔
      (inBatch n B i b ∨ covered n B completed i) := by
  unfold covered
  constructor
  · rintro ⟨c, hc, hic⟩
    rcases (mem_addCompleted b c completed).1 hc with rfl | hc'
    · exact Or.inl hic
    · exact Or.inr ⟨c, hc', hic⟩
  · rintro (hic | ⟨c, hc, hic⟩)
    · exact ⟨b, (mem_addCompleted b b completed).2 (Or.inl rfl), hic⟩
    · exact ⟨c, (mem_addCompleted b c completed).2 (Or.inr hc), hic⟩

lemma no_crit1_of_crit_at (tasks : List (Nat × CPhase))
    (hmutex : tasks.countP (fun tp => isCrit tp.2) ≤ 1)
    (t : Nat) (h : t < tasks.length) (b pc : Nat)
    (hp : tasks[t] = (b, .crit pc)) (hpc : pc ≠ 1) :
    ∀ u, ∀ (hu : u < tasks.length), ∀ b', tasks[u] ≠ (b', .crit 1) := by
  intro u hu b' hx
  by_cases he : u = t
  · subst he
    have hx2 : (b, CPhase.crit pc) = (b', CPhase.crit 1) := by
      rw [← hp]
      exact hx
    injection hx2 with h1 h2
    injection h2 with h3
    exact hpc h3
  · have hfalse := crit_unique tasks (fun tp => isCrit tp.2) hmutex t h
      (by rw [hp]; rfl) u hu he
    rw [hx] at hfalse
    simp [isCrit] at hfalse

/-- The inductive invariant of the executor: mutual exclusion over the
critical section; the counter and completed set record exactly the
completions whose steps (c) and (b) have run; the table is filled exactly on
the segments of the completed batches (with a per-program-point adjustment
while a completion is mid-critical-section); and every snapshot ever handed
to `save_checkpoint` was consistent. -/
structure ExecInv (A : Type) (n B : Nat) (completed0 : List Nat)
    (s : ExecSys A) : Prop where
  mutex : s.tasks.countP (fun tp => isCrit tp.2) ≤ 1
  lockFree : s.lockHeld = false → s.tasks.countP (fun tp => isCrit tp.2) = 0
  counterEq : s.counter = s.tasks.countP (fun tp => pastCount tp.2)
  completedEq : ∀ x, x ∈ s.completed ↔ (x ∈ completed0 ∨ taskClaims s.tasks x)
  crit1 : ∀ t, ∀ (ht : t < s.tasks.length), ∀ b, s.tasks[t] = (b, .crit 1) →
    ∀ i, (s.labels i).isSome ↔ (covered n B s.completed i ∨ inBatch n B i b)
  consist : (∀ t, ∀ (ht : t < s.tasks.length), ∀ b,
      s.tasks[t] ≠ (b, .crit 1)) →
    ∀ i, (s.labels i).isSome ↔ covered n B s.completed i
  ckConsist : ∀ ck ∈ s.checkpoints, ∀ i, (ck.1 i).isSome ↔ covered n B ck.2 i

lemma execInv_of_reachable (A : Type) (n B interval : Nat)
    (res : Nat → List A)
    (hres : ∀ b, (res b).length = batchEnd n B b - batchStart B b)
    (pending : List Nat) (labels0 : Nat → Option A) (completed0 : List Nat)
    (hconsist0 : ∀ i, (labels0 i).isSome ↔ covered n B completed0 i)
    (s : ExecSys A)
    (h : ExecReachable B interval res (initExec A pending labels0 completed0) s) :
    ExecInv A n B completed0 s := by
  induction h with
  | refl =>
    have hmap0 : ∀ (p : CPhase → Bool), p .running = false →
        (pending.map fun b => (b, CPhase.running)).countP (fun tp => p tp.2) = 0 := by
      intro p hp
      rw [List.countP_map]
      exact List.countP_eq_zero.2 (fun a _ => by simp [Function.comp, hp])
    have hclaims0 : ∀ x, ¬ taskClaims (pending.map fun b => (b, CPhase.running)) x := by
      rintro x ⟨u, hu, h1, h2⟩
      rw [List.getElem_map] at h2
      simp [pastAdd] at h2
    refine ⟨?_, ?_, ?_, ?_, ?_, ?_, ?_⟩
    · dsimp only [initExec]
      have := hmap0 isCrit rfl
      omega
    · intro _
      dsimp only [initExec]
      exact hmap0 isCrit rfl
    · dsimp only [initExec]
      exact (hmap0 pastCount rfl).symm
    · intro x
      dsimp only [initExec]
      constructor
      · exact fun hx => Or.inl hx
      · rintro (hx | hx)
        · exact hx
        · exact absurd hx (hclaims0 x)
    · intro u hu b hb
      dsimp only [initExec] at hb
      rw [List.getElem_map] at hb
      simp at hb
    · intro _ i
      exact hconsist0 i
    · intro ck hck
      exact absurd hck (List.not_mem_nil ck)
  | @step s1 s2 hr hs ih =>
    cases hs with
    | resolve t h b hp =>
      have hc := countP_snd_set isCrit s1.tasks t h b .running .waitLock hp
      simp at hc
      have hc2 := countP_snd_set pastCount s1.tasks t h b .running .waitLock hp
      simp at hc2
      refine ⟨?_, ?_, ?_, ?_, ?_, ?_, ?_⟩
      · dsimp only
        have := ih.mutex
        omega
      · intro hl
        dsimp only at hl ⊢
        have := ih.lockFree hl
        omega
      · dsimp only
        have := ih.counterEq
        omega
      · intro x
        dsimp only
        rw [taskClaims_set s1.tasks t h b .running .waitLock hp rfl x]
        exact ih.completedEq x
      · intro u hu b' hb' i
        dsimp only at hu hb' ⊢
        by_cases he : t = u
        · subst he
          rw [List.getElem_set, if_pos rfl] at hb'
          exact absurd hb' (by simp)
        · rw [List.getElem_set, if_neg he] at hb'
          exact ih.crit1 u (by simpa using hu) b' hb' i
      · intro hnone i
        dsimp only at hnone ⊢
        refine ih.consist ?_ i
        intro u hu b' hb'
        by_cases he : t = u
        · subst he
          have hb2 : (b, CPhase.running) = (b', CPhase.crit 1) := by
            rw [← hp]
            exact hb'
          simp at hb2
        · have hne := hnone u (by simpa using hu) b'
          rw [List.getElem_set, if_neg he] at hne
          exact hne hb'
      · exact ih.ckConsist
    | acquire t h b hp hl =>
      have hc := countP_snd_set isCrit s1.tasks t h b .waitLock (.crit 0) hp
      simp at hc
      have hc2 := countP_snd_set pastCount s1.tasks t h b .waitLock (.crit 0) hp
      simp at hc2
      have h0 := ih.lockFree hl
      refine ⟨?_, ?_, ?_, ?_, ?_, ?_, ?_⟩
      · dsimp only
        omega
      · intro hl'
        dsimp only at hl'
        simp at hl'
      · dsimp only
        have := ih.counterEq
        omega
      · intro x
        dsimp only
        rw [taskClaims_set s1.tasks t h b .waitLock (.crit 0) hp rfl x]
        exact ih.completedEq x
      · intro u hu b' hb' i
        dsimp only at hu hb' ⊢
        by_cases he : t = u
        · subst he
          rw [List.getElem_set, if_pos rfl] at hb'
          exact absurd hb' (by simp)
        · rw [List.getElem_set, if_neg he] at hb'
          exact ih.crit1 u (by simpa using hu) b' hb' i
      · intro hnone i
        dsimp only at hnone ⊢
        refine ih.consist ?_ i
        intro u hu b' hb'
        by_cases he : t = u
        · subst he
          have hb2 : (b, CPhase.waitLock) = (b', CPhase.crit 1) := by
            rw [← hp]
            exact hb'
          simp at hb2
        · have hne := hnone u (by simpa using hu) b'
          rw [List.getElem_set, if_neg he] at hne
          exact hne hb'
      · exact ih.ckConsist
    | stepWrite t h b hp =>
      have hc := countP_snd_set isCrit s1.tasks t h b (.crit 0) (.crit 1) hp
      simp at hc
      have hc2 := countP_snd_set pastCount s1.tasks t h b (.crit 0) (.crit 1) hp
      simp at hc2
      have hcons : ∀ j, (s1.labels j).isSome ↔ covered n B s1.completed j :=
        ih.consist (no_crit1_of_crit_at s1.tasks ih.mutex t h b 0 hp (by decide))
      refine ⟨?_, ?_, ?_, ?_, ?_, ?_, ?_⟩
      · dsimp only
        have := ih.mutex
        omega
      · intro hl
        dsimp only at hl
        exfalso
        have h0 := ih.lockFree hl
        have h1 : 0 < s1.tasks.countP (fun tp => isCrit tp.2) :=
          List.countP_pos_iff.2 ⟨_, List.getElem_mem h, by rw [hp]; rfl⟩
        omega
      · dsimp only
        have := ih.counterEq
        omega
      · intro x
        dsimp only
        rw [taskClaims_set s1.tasks t h b (.crit 0) (.crit 1) hp rfl x]
        exact ih.completedEq x
      · intro u hu b' hb' i
        dsimp only at hu hb' ⊢
        by_cases he : t = u
        · subst he
          rw [List.getElem_set, if_pos rfl] at hb'
          injection hb' with hb1 hb2
          subst hb1
          rw [writeRows_isSome A n B s1.labels b (res b) (hres b) i, hcons i]
          tauto
        · rw [List.getElem_set, if_neg he] at hb'
          exfalso
          have hfalse := crit_unique s1.tasks (fun tp => isCrit tp.2) ih.mutex t h
            (by rw [hp]; rfl) u (by simpa using hu) (fun hx => he hx.symm)
          rw [hb'] at hfalse
          simp [isCrit] at hfalse
      · intro hnone
        dsimp only at hnone
        exfalso
        have hx := hnone t (by simpa using h) b
        rw [List.getElem_set, if_pos rfl] at hx
        exact hx rfl
      · exact ih.ckConsist
    | stepAdd t h b hp =>
      have hc := countP_snd_set isCrit s1.tasks t h b (.crit 1) (.crit 2) hp
      simp at hc
      have hc2 := countP_snd_set pastCount s1.tasks t h b (.crit 1) (.crit 2) hp
      simp at hc2
      refine ⟨?_, ?_, ?_, ?_, ?_, ?_, ?_⟩
      · dsimp only
        have := ih.mutex
        omega
      · intro hl
        dsimp only at hl
        exfalso
        have h0 := ih.lockFree hl
        have h1 : 0 < s1.tasks.countP (fun tp => isCrit tp.2) :=
          List.countP_pos_iff.2 ⟨_, List.getElem_mem h, by rw [hp]; rfl⟩
        omega
      · dsimp only
        have := ih.counterEq
        omega
      · intro x
        dsimp only
        rw [mem_addCompleted b x s1.completed,
          taskClaims_set_add s1.tasks t h b hp x, ih.completedEq x]
        tauto
      · intro u hu b' hb' i
        dsimp only at hu hb' ⊢
        by_cases he : t = u
        · subst he
          rw [List.getElem_set, if_pos rfl] at hb'
          exact absurd hb' (by simp)
        · rw [List.getElem_set, if_neg he] at hb'
          exfalso
          have hfalse := crit_unique s1.tasks (fun tp => isCrit tp.2) ih.mutex t h
            (by rw [hp]; rfl) u (by simpa using hu) (fun hx => he hx.symm)
          rw [hb'] at hfalse
          simp [isCrit] at hfalse
      · intro hnone i
        dsimp only at hnone ⊢
        rw [covered_addCompleted n B b s1.completed i,
          ih.crit1 t h b hp i]
        tauto
      · exact ih.ckConsist
    | stepCount t h b hp =>
      have hc := countP_snd_set isCrit s1.tasks t h b (.crit 2) (.crit 3) hp
      simp at hc
      have hc2 := countP_snd_set pastCount s1.tasks t h b (.crit 2) (.crit 3) hp
      simp at hc2
      refine ⟨?_, ?_, ?_, ?_, ?_, ?_, ?_⟩
      · dsimp only
        have := ih.mutex
        omega
      · intro hl
        dsimp only at hl
        exfalso
        have h0 := ih.lockFree hl
        have h1 : 0 < s1.tasks.countP (fun tp => isCrit tp.2) :=
          List.countP_pos_iff.2 ⟨_, List.getElem_mem h, by rw [hp]; rfl⟩
        omega
      · dsimp only
        have := ih.counterEq
        omega
      · intro x
        dsimp only
        rw [taskClaims_set s1.tasks t h b (.crit 2) (.crit 3) hp rfl x]
        exact ih.completedEq x
      · intro u hu b' hb' i
        dsimp only at hu hb' ⊢
        by_cases he : t = u
        · subst he
          rw [List.getElem_set, if_pos rfl] at hb'
          exact absurd hb' (by simp)
        · rw [List.getElem_set, if_neg he] at hb'
          exfalso
          have hfalse := crit_unique s1.tasks (fun tp => isCrit tp.2) ih.mutex t h
            (by rw [hp]; rfl) u (by simpa using hu) (fun hx => he hx.symm)
          rw [hb'] at hfalse
          simp [isCrit] at hfalse
      · intro hnone i
        dsimp only at hnone ⊢
        exact ih.consist
          (no_crit1_of_crit_at s1.tasks ih.mutex t h b 2 hp (by decide)) i
      · exact ih.ckConsist
    | stepCkSave t h b hp hm =>
      have hc := countP_snd_set isCrit s1.tasks t h b (.crit 3) .doneTask hp
      simp at hc
      have hc2 := countP_snd_set pastCount s1.tasks t h b (.crit 3) .doneTask hp
      simp at hc2
      have hcons : ∀ j, (s1.labels j).isSome ↔ covered n B s1.completed j :=
        ih.consist (no_crit1_of_crit_at s1.tasks ih.mutex t h b 3 hp (by decide))
      refine ⟨?_, ?_, ?_, ?_, ?_, ?_, ?_⟩
      · dsimp only
        have := ih.mutex
        omega
      · intro _
        dsimp only
        have h1 : 0 < s1.tasks.countP (fun tp => isCrit tp.2) :=
          List.countP_pos_iff.2 ⟨_, List.getElem_mem h, by rw [hp]; rfl⟩
        have := ih.mutex
        omega
      · dsimp only
        have := ih.counterEq
        omega
      · intro x
        dsimp only
        rw [taskClaims_set s1.tasks t h b (.crit 3) .doneTask hp rfl x]
        exact ih.completedEq x
      · intro u hu b' hb' i
        dsimp only at hu hb' ⊢
        by_cases he : t = u
        · subst he
          rw [List.getElem_set, if_pos rfl] at hb'
          exact absurd hb' (by simp)
        · rw [List.getElem_set, if_neg he] at hb'
          exact absurd hb'
            (no_crit1_of_crit_at s1.tasks ih.mutex t h b 3 hp (by decide) u
              (by simpa using hu) b')
      · intro _ i
        dsimp only
        exact hcons i
      · intro ck hck i
        dsimp only at hck
        rcases List.mem_cons.1 hck with rfl | hck'
        · exact hcons i
        · exact ih.ckConsist ck hck' i
    | stepCkSkip t h b hp hm =>
      have hc := countP_snd_set isCrit s1.tasks t h b (.crit 3) .doneTask hp
      simp at hc
      have hc2 := countP_snd_set pastCount s1.tasks t h b (.crit 3) .doneTask hp
      simp at hc2
      have hcons : ∀ j, (s1.labels j).isSome ↔ covered n B s1.completed j :=
        ih.consist (no_crit1_of_crit_at s1.tasks ih.mutex t h b 3 hp (by decide))
      refine ⟨?_, ?_, ?_, ?_, ?_, ?_, ?_⟩
      · dsimp only
        have := ih.mutex
        omega
      · intro _
        dsimp only
        have h1 : 0 < s1.tasks.countP (fun tp => isCrit tp.2) :=
          List.countP_pos_iff.2 ⟨_, List.getElem_mem h, by rw [hp]; rfl⟩
        have := ih.mutex
        omega
      · dsimp only
        have := ih.counterEq
        omega
      · intro x
        dsimp only
        rw [taskClaims_set s1.tasks t h b (.crit 3) .doneTask hp rfl x]
        exact ih.completedEq x
      · intro u hu b' hb' i
        dsimp only at hu hb' ⊢
        by_cases he : t = u
        · subst he
          rw [List.getElem_set, if_pos rfl] at hb'
          exact absurd hb' (by simp)
        · rw [List.getElem_set, if_neg he] at hb'
          exact absurd hb'
            (no_crit1_of_crit_at s1.tasks ih.mutex t h b 3 hp (by decide) u
              (by simpa using hu) b')
      · intro _ i
        dsimp only
        exact hcons i
      · exact ih.ckConsist

/-- **C5.** In every state reachable from a run start — any interleaving of
batch completions under the `asyncio.Lock` — (i) at most one task is inside
the critical section that performs (a) the slice write, (b) the
completed-set add, (c) the counter increment and (d) the periodic checkpoint
save, and none is when the lock is free, so completions of different batches
are mutually exclusive; (ii) no update is lost: the counter equals exactly
the number of completions whose step (c) has run, and the completed set is
exactly the initial set plus the batches whose step (b) has run; and (iii)
every snapshot ever handed to `save_checkpoint` is consistent: its table is
filled exactly on the segments of its completed batches. -/
theorem completion_critical_section (A : Type) (n B interval : Nat)
    (res : Nat → List A)
    (hres : ∀ b, (res b).length = batchEnd n B b - batchStart B b)
    (pending : List Nat) (labels0 : Nat → Option A) (completed0 : List Nat)
    (hconsist0 : ∀ i, (labels0 i).isSome ↔ covered n B completed0 i)
    (s : ExecSys A)
    (h : ExecReachable B interval res (initExec A pending labels0 completed0) s) :
    s.tasks.countP (fun tp => isCrit tp.2) ≤ 1 ∧
    (s.lockHeld = false → s.tasks.countP (fun tp => isCrit tp.2) = 0) ∧
    s.counter = s.tasks.countP (fun tp => pastCount tp.2) ∧
    (∀ x, x ∈ s.completed ↔ (x ∈ completed0 ∨ taskClaims s.tasks x)) ∧
    (∀ ck ∈ s.checkpoints, ∀ i, (ck.1 i).isSome ↔ covered n B ck.2 i) := by
  have hinv := execInv_of_reachable A n B interval res hres pending labels0
    completed0 hconsist0 s h
  exact ⟨hinv.mutex, hinv.lockFree, hinv.counterEq, hinv.completedEq,
    hinv.ckConsist⟩

/-- Witness for `completion_critical_section`: the start state of a fresh
2-batch run (`n = 2`, `B = 1`). -/
theorem completion_critical_section_witness :
    (initExec ℕ [0, 1] (fun _ => none) []).tasks.countP
      (fun tp => isCrit tp.2) ≤ 1 ∧
    ((initExec ℕ [0, 1] (fun _ => none) []).lockHeld = false →
      (initExec ℕ [0, 1] (fun _ => none) []).tasks.countP
        (fun tp => isCrit tp.2) = 0) ∧
    (initExec ℕ [0, 1] (fun _ => none) []).counter =
      (initExec ℕ [0, 1] (fun _ => none) []).tasks.countP
        (fun tp => pastCount tp.2) ∧
    (∀ x, x ∈ (initExec ℕ [0, 1] (fun _ => none) []).completed ↔
      (x ∈ ([] : List ℕ) ∨
        taskClaims (initExec ℕ [0, 1] (fun _ => none) []).tasks x)) ∧
    (∀ ck ∈ (initExec ℕ [0, 1] (fun _ => none) []).checkpoints,
      ∀ i, (ck.1 i).isSome ↔ covered 2 1 ck.2 i) :=
  completion_critical_section ℕ 2 1 5 (fun b => if b < 2 then [b] else [])
    (fun b => by rcases b with _ | _ | b <;> simp [batchStart, batchEnd])
    [0, 1] (fun _ => none) [] (fun i => by simp [covered])
    (initExec ℕ [0, 1] (fun _ => none) []) ExecReachable.refl

end Labeling
